import Mathlib

/-!
# The week1 pybind11 exercises

A shallow embedding of the functions of `week1/day1/example.cpp` and
`week1/day2/example.cpp`, and the properties their specification states.

* `int` is the 32-bit two's complement integer; a value is a mathematical
  integer in `[INT_MIN, INT_MAX]` and `a + b` keeps the low 32 bits of the sum.
* `double` is IEEE 754 binary64 with round-to-nearest, ties-to-even: `Double.add`
  and `Double.mul` round the exact result (`Double.add_nearest`,
  `Double.mul_nearest`, `Double.roundPack_tie_even`). All NaNs are one value.
* `std::string` is a sequence of characters, `+` on it is concatenation.
* `std::accumulate` is the loop `for (; first != last; ++first) init = init + *first;`.
-/

/-! ## `int` -/

/-- Least value of `int` (32 bits, two's complement). -/
def INT_MIN : Int := -2147483648

/-- Greatest value of `int` (32 bits, two's complement). -/
def INT_MAX : Int := 2147483647

/-- The integer `x` is a value of type `int`. -/
def isInt (x : Int) : Prop := INT_MIN ≤ x ∧ x ≤ INT_MAX

instance (x : Int) : Decidable (isInt x) := by
  unfold isInt
  exact inferInstance

/-- The `int` that machine arithmetic delivers for the exact result `x`: the
value in `[INT_MIN, INT_MAX]` congruent to `x` modulo `2^32`. ISO C++ gives no
meaning to a signed sum outside the range; this is what the compiled addition
of two registers produces. -/
def wrapInt (x : Int) : Int := (x + 2147483648) % 4294967296 - 2147483648

namespace week1.day1

/-- Source: `int add(int a, int b) { return a + b; }` (`week1/day1/example.cpp`). -/
def add (a b : Int) : Int := wrapInt (a + b)

end week1.day1

/-! ## `double` -/

/-- An IEEE 754 binary64 datum. `finite sign expo frac` carries the sign bit, the
biased exponent (`0 ≤ expo ≤ 2046`) and the 52-bit fraction; all NaNs are one
value. -/
inductive Double where
  | finite (sign : Bool) (expo : Nat) (frac : Nat)
  | inf (sign : Bool)
  | nan
deriving DecidableEq

namespace Double

/-- Magnitude of a finite datum as a multiple of `2^-1074`, the spacing of the
subnormal numbers: `frac` when `expo = 0`, else `(2^52 + frac) * 2^(expo - 1)`. -/
def mag (expo frac : Nat) : Nat :=
  if expo = 0 then frac else (4503599627370496 + frac) <<< (expo - 1)

/-- Counts the binary digits of `n` on top of `acc`, dropping 64 digits at a time
while `2^64 ≤ n` and one digit at a time below that, in at most `fuel` steps. -/
def bitLengthAux : Nat → Nat → Nat → Nat
  | 0, _, acc => acc
  | fuel + 1, n, acc =>
    if n = 0 then acc
    else if n < 18446744073709551616 then bitLengthAux fuel (n / 2) (acc + 1)
    else bitLengthAux fuel (n / 18446744073709551616) (acc + 64)

/-- Number of binary digits of `n`; `n` steps always reach zero. -/
def bitLength (n : Nat) : Nat := bitLengthAux n n 0

/-- The quotient `n / 2^shift` rounded to the nearest integer, a tie going to
the even one. -/
def roundQuot (n shift : Nat) : Nat :=
  let q := n >>> shift
  let rem := n % (1 <<< shift)
  if 1 <<< shift < 2 * rem ∨ (2 * rem = 1 <<< shift ∧ q % 2 = 1) then q + 1 else q

/-- The datum of magnitude `r * 2^e` (in multiples of `2^-1074`) for a significand
`r ≤ 2^53` (with `e = 0` when `r < 2^52`); a magnitude of `2^1024` or more is an
infinity. -/
def pack (sign : Bool) (r e : Nat) : Double :=
  if r < 4503599627370496 then finite sign 0 r
  else if r < 9007199254740992 then
    (if e + 1 < 2047 then finite sign (e + 1) (r - 4503599627370496) else inf sign)
  else
    (if e + 2 < 2047 then finite sign (e + 2) 0 else inf sign)

/-- Number of low digits of `n` that rounding `n / 2^k` drops: those beyond 53
significant digits, and at least the `k` digits below `2^-1074`. -/
def roundShift (n k : Nat) : Nat := max k (bitLength n - 53)

/-- Round-to-nearest, ties-to-even, of the magnitude `n / 2^k` (in multiples of
`2^-1074`) to 53 significant bits, packed with the sign. -/
def roundPack (sign : Bool) (n k : Nat) : Double :=
  pack sign (roundQuot n (roundShift n k)) (roundShift n k - k)

/-- Addition of `double`: the exact sum, rounded. -/
def add : Double → Double → Double
  | nan, _ => nan
  | _, nan => nan
  | inf s, inf t => if s = t then inf s else nan
  | inf s, finite _ _ _ => inf s
  | finite _ _ _, inf t => inf t
  | finite s1 e1 f1, finite s2 e2 f2 =>
    let a := mag e1 f1
    let b := mag e2 f2
    if s1 = s2 then roundPack s1 (a + b) 0
    else if a = b then finite false 0 0
    else if b < a then roundPack s1 (a - b) 0
    else roundPack s2 (b - a) 0

/-- Multiplication of `double`: the exact product, rounded. -/
def mul : Double → Double → Double
  | nan, _ => nan
  | _, nan => nan
  | inf s, inf t => inf (xor s t)
  | inf s, finite t e f => if mag e f = 0 then nan else inf (xor s t)
  | finite s e f, inf t => if mag e f = 0 then nan else inf (xor s t)
  | finite s1 e1 f1, finite s2 e2 f2 =>
    roundPack (xor s1 s2) (mag e1 f1 * mag e2 f2) 1074

instance : Add Double := ⟨Double.add⟩

instance : Mul Double := ⟨Double.mul⟩

/-- The datum with the 64-bit encoding `w`. -/
def ofBits (w : Nat) : Double :=
  let s := decide ((w >>> 63) % 2 = 1)
  let e := (w >>> 52) % 2048
  let f := w % 4503599627370496
  if e = 2047 then (if f = 0 then inf s else nan) else finite s e f

/-- The literal `0.0`. -/
def zero : Double := finite false 0 0

/-- The `double` a decimal literal of value `(-1)^neg * n / 2^k` denotes: the
nearest datum (`dyadic false 3 1` is `1.5`, `dyadic true 3 1` is `-1.5`). -/
def dyadic (neg : Bool) (n k : Nat) : Double := roundPack neg (n <<< 1074) k

end Double

/-! ## `std::accumulate` -/

/-- The three-argument `std::accumulate(first, last, init)` of `<numeric>` over the
range held in a list: `init = init + *first` for each element in turn, then
`return init`. -/
def accumulate {T : Type} [Add T] : List T → T → T
  | [], init => init
  | x :: rest, init => accumulate rest (init + x)

namespace week1.day2

/-- Source: `int add(int a, int b) { return a + b; }`. -/
def add (a b : Int) : Int := wrapInt (a + b)

/-- Source: `double multiply(double a, double b) { return a * b; }`. -/
def multiply (a b : Double) : Double := a * b

/-- Source: `return "Hello, " + name + "!";`. -/
def greet (name : String) : String := "Hello, " ++ name ++ "!"

/-- Source: `return std::accumulate(numbers.begin(), numbers.end(), 0.0);`. -/
def sum_list (numbers : List Double) : Double := accumulate numbers Double.zero

end week1.day2

/-- The sum as the specification words it: the left-to-right fold of `+` over the
sequence from the accumulator `0.0`, that is `((0.0 + x1) + x2) + ... + xn`. -/
def specLeftFoldSum (numbers : List Double) : Double :=
  List.foldl (fun acc x => acc + x) Double.zero numbers

namespace Double

/-- The value of a finite datum as a signed multiple of `2^-1074` (and `0` for an
infinity or a NaN, which have no value). -/
def units : Double → Int
  | finite sign expo frac => if sign then -(mag expo frac : Int) else (mag expo frac : Int)
  | _ => 0

end Double

/-! ## Facts about the embedding -/

theorem wrapInt_of_isInt (x : Int) (h : isInt x) : wrapInt x = x := by
  unfold isInt INT_MIN INT_MAX at h
  unfold wrapInt
  omega

theorem isInt_wrapInt (x : Int) : isInt (wrapInt x) := by
  unfold isInt INT_MIN INT_MAX wrapInt
  omega

theorem wrapInt_ne_of_not_isInt (x : Int) (h : ¬ isInt x) : wrapInt x ≠ x := by
  intro hx
  exact h (hx ▸ isInt_wrapInt x)

/-- The machine sum is the exact sum precisely when the exact sum is an `int`. -/
theorem wrapInt_add_eq_iff (i j : Int) : wrapInt (i + j) = i + j ↔ isInt (i + j) :=
  ⟨fun h => by_contra fun hn => wrapInt_ne_of_not_isInt _ hn h, wrapInt_of_isInt _⟩

theorem accumulate_eq_foldl {T : Type} [Add T] (xs : List T) (init : T) :
    accumulate xs init = List.foldl (fun acc x => acc + x) init xs := by
  induction xs generalizing init with
  | nil => rfl
  | cons x rest ih => simp [accumulate, ih]

theorem accumulate_append {T : Type} [Add T] (xs ys : List T) (init : T) :
    accumulate (xs ++ ys) init = accumulate ys (accumulate xs init) := by
  induction xs generalizing init with
  | nil => rfl
  | cons x rest ih => simp [accumulate, ih]

theorem Double.bitLengthAux_spec (fuel : Nat) : ∀ n acc : Nat, n ≤ fuel →
    ∃ len, Double.bitLengthAux fuel n acc = acc + len ∧ (n = 0 → len = 0) ∧ n < 2 ^ len ∧
      (n ≠ 0 → 1 ≤ len ∧ 2 ^ (len - 1) ≤ n) := by
  induction fuel with
  | zero =>
    intro n acc h
    have hn : n = 0 := by omega
    subst hn
    exact ⟨0, rfl, fun _ => rfl, by simp, fun h => absurd rfl h⟩
  | succ fuel ih =>
    intro n acc h
    by_cases hn : n = 0
    · subst hn
      exact ⟨0, by simp [Double.bitLengthAux], fun _ => rfl, by simp, fun h => absurd rfl h⟩
    · by_cases hlt : n < 18446744073709551616
      · obtain ⟨len, h1, h2, h3, h4⟩ := ih (n / 2) (acc + 1) (by omega)
        refine ⟨len + 1, ?_, fun h => absurd h hn, ?_, fun _ => ⟨by omega, ?_⟩⟩
        · simp only [Double.bitLengthAux, if_neg hn, if_pos hlt, h1]
          omega
        · rw [pow_succ]
          omega
        · by_cases h0 : n / 2 = 0
          · rw [h2 h0]
            simp
            omega
          · obtain ⟨h5, h6⟩ := h4 h0
            have : len + 1 - 1 = (len - 1) + 1 := by omega
            rw [this, pow_succ]
            omega
      · obtain ⟨len, h1, h2, h3, h4⟩ := ih (n / 18446744073709551616) (acc + 64) (by omega)
        have h0 : n / 18446744073709551616 ≠ 0 := by omega
        obtain ⟨h5, h6⟩ := h4 h0
        refine ⟨len + 64, ?_, fun h => absurd h hn, ?_, fun _ => ⟨by omega, ?_⟩⟩
        · simp only [Double.bitLengthAux, if_neg hn, if_neg hlt, h1]
          omega
        · rw [pow_add]
          have : (2:Nat) ^ 64 = 18446744073709551616 := by norm_num
          rw [this]
          omega
        · have : len + 64 - 1 = (len - 1) + 64 := by omega
          rw [this, pow_add]
          have : (2:Nat) ^ 64 = 18446744073709551616 := by norm_num
          rw [this]
          omega

/-- The fuel of `bitLength` is enough: `bitLength n` is the number of binary digits
of `n`, the least `len` with `n < 2 ^ len`. -/
theorem Double.bitLength_spec (n : Nat) :
    (n = 0 → Double.bitLength n = 0) ∧ n < 2 ^ Double.bitLength n ∧
      (n ≠ 0 → 1 ≤ Double.bitLength n ∧ 2 ^ (Double.bitLength n - 1) ≤ n) := by
  obtain ⟨len, h1, h2⟩ := Double.bitLengthAux_spec n n 0 (Nat.le_refl n)
  have h : Double.bitLength n = len := by simp [Double.bitLength, h1]
  rw [h]
  exact h2

theorem Double.bitLength_eq (n len : Nat) (hlen : 1 ≤ len) (hlo : 2 ^ (len - 1) ≤ n)
    (hhi : n < 2 ^ len) : Double.bitLength n = len := by
  have hn : n ≠ 0 := by
    have : 0 < 2 ^ (len - 1) := Nat.two_pow_pos _
    omega
  obtain ⟨_, h2, h3⟩ := Double.bitLength_spec n
  obtain ⟨h4, h5⟩ := h3 hn
  have a1 : len - 1 < Double.bitLength n :=
    (Nat.pow_lt_pow_iff_right (by norm_num : 1 < 2)).mp (lt_of_le_of_lt hlo h2)
  have a2 : Double.bitLength n - 1 < len :=
    (Nat.pow_lt_pow_iff_right (by norm_num : 1 < 2)).mp (lt_of_le_of_lt h5 hhi)
  omega

theorem Double.bitLength_le (n len : Nat) (hhi : n < 2 ^ len) : Double.bitLength n ≤ len := by
  by_cases hn : n = 0
  · rw [(Double.bitLength_spec n).1 hn]
    exact Nat.zero_le _
  · obtain ⟨_, _, h3⟩ := Double.bitLength_spec n
    obtain ⟨h4, h5⟩ := h3 hn
    have a2 : Double.bitLength n - 1 < len :=
      (Nat.pow_lt_pow_iff_right (by norm_num : 1 < 2)).mp (lt_of_le_of_lt h5 hhi)
    omega


theorem Double.roundQuot_of_mod_eq_zero (n shift : Nat) (h : n % 2 ^ shift = 0) :
    Double.roundQuot n shift = n / 2 ^ shift := by
  have hp : 0 < 2 ^ shift := Nat.two_pow_pos _
  have h1 : ¬ (2 ^ shift < 0 ∨ (0 = 2 ^ shift ∧ (n / 2 ^ shift) % 2 = 1)) := by omega
  simp only [Double.roundQuot, Nat.one_shiftLeft, Nat.shiftRight_eq_div_pow, h, Nat.mul_zero,
    if_neg h1]

/-- Rounding is exact on the format: the magnitude of a finite datum rounds to
that datum. -/
theorem Double.roundPack_mag (sign : Bool) (expo frac : Nat) (he : expo < 2047)
    (hf : frac < 4503599627370496) :
    Double.roundPack sign (Double.mag expo frac) 0 = Double.finite sign expo frac := by
  by_cases h0 : expo = 0
  · subst h0
    have hb : Double.roundShift (Double.mag 0 frac) 0 = 0 := by
      have := Double.bitLength_le frac 52 (by norm_num; exact hf)
      simp only [Double.roundShift, Double.mag, if_pos]
      omega
    have hq : Double.roundQuot (Double.mag 0 frac) 0 = frac := by
      rw [Double.roundQuot_of_mod_eq_zero _ _ (by simp [Nat.mod_one])]
      simp [Double.mag]
    simp only [Double.roundPack, hb, hq, Double.pack, if_pos hf]
  · have hp : 0 < 2 ^ (expo - 1) := Nat.two_pow_pos _
    have hn : Double.mag expo frac = (4503599627370496 + frac) * 2 ^ (expo - 1) := by
      simp [Double.mag, h0, Nat.shiftLeft_eq]
    have hb : Double.bitLength (Double.mag expo frac) = expo + 52 := by
      apply Double.bitLength_eq
      · omega
      · rw [hn]
        have : expo + 52 - 1 = 52 + (expo - 1) := by omega
        rw [this, pow_add]
        exact Nat.mul_le_mul_right _ (by norm_num)
      · rw [hn]
        have : expo + 52 = 53 + (expo - 1) := by omega
        rw [this, pow_add]
        exact Nat.mul_lt_mul_of_lt_of_le (by norm_num; omega) (Nat.le_refl _) hp
    have hs : Double.roundShift (Double.mag expo frac) 0 = expo - 1 := by
      simp only [Double.roundShift, hb]
      omega
    have hq : Double.roundQuot (Double.mag expo frac) (expo - 1) = 4503599627370496 + frac := by
      rw [Double.roundQuot_of_mod_eq_zero _ _ (by rw [hn]; exact Nat.mul_mod_left _ _), hn]
      exact Nat.mul_div_cancel _ hp
    have h1 : ¬ 4503599627370496 + frac < 4503599627370496 := by omega
    have h2 : 4503599627370496 + frac < 9007199254740992 := by omega
    have e1 : expo - 1 - 0 + 1 = expo := by omega
    simp only [Double.roundPack, hs, hq, Double.pack, if_neg h1, if_pos h2, e1, if_pos he,
      Nat.add_sub_cancel_left]

/-- The rounded quotient is within half a unit of `n / 2^shift`, and is even when it
is exactly half a unit away. -/
theorem Double.roundQuot_spec (n shift : Nat) :
    2 * (Double.roundQuot n shift * 2 ^ shift) ≤ 2 * n + 2 ^ shift ∧
    2 * n ≤ 2 * (Double.roundQuot n shift * 2 ^ shift) + 2 ^ shift ∧
    n / 2 ^ shift ≤ Double.roundQuot n shift ∧
    ((2 * (Double.roundQuot n shift * 2 ^ shift) = 2 * n + 2 ^ shift ∨
      2 * n = 2 * (Double.roundQuot n shift * 2 ^ shift) + 2 ^ shift) →
        Double.roundQuot n shift % 2 = 0) := by
  have hp : 0 < 2 ^ shift := Nat.two_pow_pos _
  have hn : 2 ^ shift * (n / 2 ^ shift) + n % 2 ^ shift = n := Nat.div_add_mod n (2 ^ shift)
  have hr : n % 2 ^ shift < 2 ^ shift := Nat.mod_lt _ hp
  have hc : 2 ^ shift * (n / 2 ^ shift) = n / 2 ^ shift * 2 ^ shift := Nat.mul_comm _ _
  have hs : (n / 2 ^ shift + 1) * 2 ^ shift = n / 2 ^ shift * 2 ^ shift + 2 ^ shift := by
    rw [Nat.add_mul, Nat.one_mul]
  simp only [Double.roundQuot, Nat.one_shiftLeft, Nat.shiftRight_eq_div_pow]
  split
  · next h =>
    rw [hs]
    refine ⟨by omega, by omega, by omega, ?_⟩
    intro ht
    omega
  · next h =>
    refine ⟨by omega, by omega, by omega, ?_⟩
    intro ht
    omega

theorem Double.roundShift_spec (n k : Nat) :
    k ≤ Double.roundShift n k ∧ n < 2 ^ (Double.roundShift n k + 53) ∧
      (k < Double.roundShift n k → 2 ^ (Double.roundShift n k + 52) ≤ n) := by
  obtain ⟨h0, h1, h2⟩ := Double.bitLength_spec n
  have hle : Double.bitLength n ≤ Double.roundShift n k + 53 := by
    simp only [Double.roundShift]
    omega
  refine ⟨by simp only [Double.roundShift]; omega, ?_, ?_⟩
  · exact lt_of_lt_of_le h1 (Nat.pow_le_pow_right (by norm_num) hle)
  · intro hk
    have hs : Double.roundShift n k = Double.bitLength n - 53 := by
      simp only [Double.roundShift] at hk ⊢
      omega
    have hb : 53 < Double.bitLength n := by omega
    have hn : n ≠ 0 := by
      intro hz
      have := h0 hz
      omega
    have e : Double.roundShift n k + 52 = Double.bitLength n - 1 := by omega
    rw [e]
    exact (h2 hn).2

/-- The rounded significand has at most 53 digits (or is `2^53`), and exactly 53
when digits above `2^-1074` were dropped. -/
theorem Double.roundQuot_roundShift (n k : Nat) :
    Double.roundQuot n (Double.roundShift n k) ≤ 9007199254740992 ∧
      (k < Double.roundShift n k →
        4503599627370496 ≤ Double.roundQuot n (Double.roundShift n k)) := by
  obtain ⟨_, h2, h3⟩ := Double.roundShift_spec n k
  obtain ⟨a1, _, a3, _⟩ := Double.roundQuot_spec n (Double.roundShift n k)
  have hp : 0 < 2 ^ Double.roundShift n k := Nat.two_pow_pos _
  constructor
  · rw [pow_add] at h2
    have e53 : (2:Nat) ^ 53 = 9007199254740992 := by norm_num
    rw [e53] at h2
    by_contra hgt
    have hge : 9007199254740993 ≤ Double.roundQuot n (Double.roundShift n k) := by omega
    have := Nat.mul_le_mul_right (2 ^ Double.roundShift n k) hge
    have e : 9007199254740993 * 2 ^ Double.roundShift n k
        = 2 ^ Double.roundShift n k * 9007199254740992 + 2 ^ Double.roundShift n k := by
      rw [Nat.mul_comm]
      rfl
    omega
  · intro hk
    have h4 := h3 hk
    rw [pow_add] at h4
    have e52 : (2:Nat) ^ 52 = 4503599627370496 := by norm_num
    rw [e52, Nat.mul_comm] at h4
    have := (Nat.le_div_iff_mul_le hp).mpr h4
    omega

/-- The datum `pack` builds is within the format and has the magnitude `r * 2^e`. -/
theorem Double.pack_finite (sign s : Bool) (r e expo frac : Nat)
    (hr : r ≤ 9007199254740992) (he : r < 4503599627370496 → e = 0)
    (h : Double.pack sign r e = Double.finite s expo frac) :
    s = sign ∧ expo < 2047 ∧ frac < 4503599627370496 ∧ Double.mag expo frac = r * 2 ^ e ∧
      frac % 2 = r % 2 := by
  unfold Double.pack at h
  split at h
  · next h1 =>
    injection h with hs hx hf
    subst hs hx hf
    simp [Double.mag, he h1, h1]
  · next h1 =>
    split at h
    · next h2 =>
      split at h
      · next h3 =>
        injection h with hs hx hf
        subst hs hx hf
        refine ⟨rfl, h3, by omega, ?_, by omega⟩
        have : 4503599627370496 + (r - 4503599627370496) = r := by omega
        simp [Double.mag, this, Nat.shiftLeft_eq]
      · exact Double.noConfusion h
    · next h2 =>
      split at h
      · next h3 =>
        injection h with hs hx hf
        subst hs hx hf
        have hr2 : r = 9007199254740992 := by omega
        refine ⟨rfl, h3, by omega, ?_, by omega⟩
        have e1 : e + 2 - 1 = e + 1 := by omega
        have e2 : ¬ e + 2 = 0 := by omega
        simp only [Double.mag, Nat.shiftLeft_eq, hr2, e1, if_neg e2, pow_succ]
        omega
      · exact Double.noConfusion h

theorem Double.mul_two_pow_le_mul_two_pow (c r a e : Nat) (hr : c ≤ r) (ha : a ≤ e) :
    c * 2 ^ a ≤ r * 2 ^ e :=
  Nat.mul_le_mul hr (Nat.pow_le_pow_right (by norm_num) ha)

/-- An infinity comes out of `pack` only for a magnitude of `2^1024` or more. -/
theorem Double.pack_inf (sign s : Bool) (r e : Nat) (h : Double.pack sign r e = Double.inf s) :
    s = sign ∧ 2 ^ 2098 ≤ r * 2 ^ e := by
  unfold Double.pack at h
  split at h
  · exact Double.noConfusion h
  · next h1 =>
    have e52 : (2:Nat) ^ 52 = 4503599627370496 := by norm_num
    have e53 : (2:Nat) ^ 53 = 9007199254740992 := by norm_num
    have hpow : (2:Nat) ^ 2098 = 4503599627370496 * 2 ^ 2046 := by
      rw [← e52, ← pow_add]
    split at h
    · next h2 =>
      split at h
      · exact Double.noConfusion h
      · next h3 =>
        injection h with hs
        refine ⟨hs.symm, ?_⟩
        rw [hpow]
        exact Double.mul_two_pow_le_mul_two_pow 4503599627370496 r 2046 e (by omega) (by omega)
    · next h2 =>
      split at h
      · exact Double.noConfusion h
      · next h3 =>
        injection h with hs
        refine ⟨hs.symm, ?_⟩
        have hpow2 : (2:Nat) ^ 2098 = 9007199254740992 * 2 ^ 2045 := by
          rw [← e53, ← pow_add]
        rw [hpow2]
        exact Double.mul_two_pow_le_mul_two_pow 9007199254740992 r 2045 e (by omega) (by omega)

/-- No multiple of `2^shift` is nearer to `n` than the rounded quotient times
`2^shift`. -/
theorem Double.roundQuot_nearest (n shift m : Nat) :
    Nat.dist (Double.roundQuot n shift * 2 ^ shift) n ≤ Nat.dist (m * 2 ^ shift) n := by
  obtain ⟨a1, a2, _, _⟩ := Double.roundQuot_spec n shift
  have hp : 0 < 2 ^ shift := Nat.two_pow_pos _
  unfold Nat.dist
  rcases Nat.lt_trichotomy m (Double.roundQuot n shift) with hlt | heq | hgt
  · have := Nat.mul_le_mul_right (2 ^ shift) (Nat.succ_le_of_lt hlt)
    rw [Nat.succ_mul] at this
    omega
  · rw [heq]
  · have := Nat.mul_le_mul_right (2 ^ shift) (Nat.succ_le_of_lt hgt)
    rw [Nat.succ_mul] at this
    omega

/-- A magnitude of the format that is not a multiple of `2^g` is below `2^(52+g)`. -/
theorem Double.mag_lt_of_not_dvd (expo frac g : Nat) (hf : frac < 4503599627370496)
    (h : ¬ 2 ^ g ∣ Double.mag expo frac) : Double.mag expo frac < 2 ^ (52 + g) := by
  have e52 : (2:Nat) ^ 52 = 4503599627370496 := by norm_num
  by_cases h0 : expo = 0
  · simp only [Double.mag, if_pos h0]
    rw [pow_add, e52]
    have hp : 0 < 2 ^ g := Nat.two_pow_pos _
    calc frac < 4503599627370496 * 1 := by omega
      _ ≤ 4503599627370496 * 2 ^ g := Nat.mul_le_mul_left _ hp
  · simp only [Double.mag, if_neg h0, Nat.shiftLeft_eq] at h ⊢
    have hlt : expo - 1 < g := by
      by_contra hge
      exact h (Dvd.dvd.mul_left (pow_dvd_pow 2 (by omega)) _)
    have e53 : (2:Nat) ^ 53 = 9007199254740992 := by norm_num
    calc (4503599627370496 + frac) * 2 ^ (expo - 1)
        < 2 ^ 53 * 2 ^ (expo - 1) :=
          Nat.mul_lt_mul_of_lt_of_le (by rw [e53]; omega) (Nat.le_refl _) (Nat.two_pow_pos _)
      _ = 2 ^ (53 + (expo - 1)) := (pow_add 2 53 (expo - 1)).symm
      _ ≤ 2 ^ (52 + g) := Nat.pow_le_pow_right (by norm_num) (by omega)

/-- A finite result of `roundPack` keeps the sign, is within the format, and its
magnitude is the rounded quotient on the grid of spacing `2^(roundShift n k)`. -/
theorem Double.roundPack_finite (sign s : Bool) (n k expo frac : Nat)
    (h : Double.roundPack sign n k = Double.finite s expo frac) :
    s = sign ∧ expo < 2047 ∧ frac < 4503599627370496 ∧
      Double.mag expo frac * 2 ^ k
        = Double.roundQuot n (Double.roundShift n k) * 2 ^ Double.roundShift n k ∧
      frac % 2 = Double.roundQuot n (Double.roundShift n k) % 2 := by
  obtain ⟨hk, _, _⟩ := Double.roundShift_spec n k
  obtain ⟨b1, b2⟩ := Double.roundQuot_roundShift n k
  have he : Double.roundQuot n (Double.roundShift n k) < 4503599627370496 →
      Double.roundShift n k - k = 0 := by
    intro hlt
    by_contra hne
    have := b2 (by omega)
    omega
  obtain ⟨c1, c2, c3, c4, c5⟩ := Double.pack_finite sign s _ _ expo frac b1 he h
  refine ⟨c1, c2, c3, ?_, c5⟩
  rw [c4, Nat.mul_assoc, ← pow_add, Nat.sub_add_cancel hk]

/-- Round to nearest: no datum of the format is nearer to `n / 2^k` than a finite
result of `roundPack`. -/
theorem Double.roundPack_nearest (sign s : Bool) (n k expo frac : Nat)
    (h : Double.roundPack sign n k = Double.finite s expo frac)
    (expo2 frac2 : Nat) (hf2 : frac2 < 4503599627370496) :
    Nat.dist (Double.mag expo frac * 2 ^ k) n ≤ Nat.dist (Double.mag expo2 frac2 * 2 ^ k) n := by
  obtain ⟨_, _, _, hv, _⟩ := Double.roundPack_finite sign s n k expo frac h
  obtain ⟨hk, _, hbig⟩ := Double.roundShift_spec n k
  rw [hv]
  by_cases hd : 2 ^ (Double.roundShift n k - k) ∣ Double.mag expo2 frac2
  · obtain ⟨m, hm⟩ := hd
    have : Double.mag expo2 frac2 * 2 ^ k = m * 2 ^ Double.roundShift n k := by
      rw [hm, Nat.mul_comm _ m, Nat.mul_assoc, ← pow_add, Nat.sub_add_cancel hk]
    rw [this]
    exact Double.roundQuot_nearest n _ m
  · have hlt := Double.mag_lt_of_not_dvd expo2 frac2 _ hf2 hd
    have hkS : k < Double.roundShift n k := by
      by_contra hge
      have e0 : Double.roundShift n k - k = 0 := by omega
      rw [e0] at hd
      exact hd (one_dvd _)
    have hn := hbig hkS
    have hw : Double.mag expo2 frac2 * 2 ^ k < 2 ^ (Double.roundShift n k + 52) := by
      have := Nat.mul_lt_mul_of_lt_of_le hlt (Nat.le_refl (2 ^ k)) (Nat.two_pow_pos k)
      rw [← pow_add] at this
      have e : 52 + (Double.roundShift n k - k) + k = Double.roundShift n k + 52 := by omega
      rw [e] at this
      exact this
    have hgrid := Double.roundQuot_nearest n (Double.roundShift n k) (2 ^ 52)
    rw [← pow_add, Nat.add_comm 52] at hgrid
    unfold Nat.dist at hgrid ⊢
    omega

/-- Ties to even: when another magnitude of the format is exactly as near to
`n / 2^k` as a finite result of `roundPack`, the result has an even fraction. -/
theorem Double.roundPack_tie_even (sign s : Bool) (n k expo frac : Nat)
    (h : Double.roundPack sign n k = Double.finite s expo frac)
    (expo2 frac2 : Nat) (hf2 : frac2 < 4503599627370496)
    (hne : Double.mag expo2 frac2 ≠ Double.mag expo frac)
    (htie : Nat.dist (Double.mag expo2 frac2 * 2 ^ k) n = Nat.dist (Double.mag expo frac * 2 ^ k) n) :
    frac % 2 = 0 := by
  obtain ⟨_, _, _, hv, hpar⟩ := Double.roundPack_finite sign s n k expo frac h
  obtain ⟨hk, _, hbig⟩ := Double.roundShift_spec n k
  obtain ⟨a1, a2, _, a4⟩ := Double.roundQuot_spec n (Double.roundShift n k)
  have hp : 0 < 2 ^ Double.roundShift n k := Nat.two_pow_pos _
  rw [hpar]
  rw [hv] at htie
  by_cases hd : 2 ^ (Double.roundShift n k - k) ∣ Double.mag expo2 frac2
  · obtain ⟨m, hm⟩ := hd
    have hw : Double.mag expo2 frac2 * 2 ^ k = m * 2 ^ Double.roundShift n k := by
      rw [hm, Nat.mul_comm _ m, Nat.mul_assoc, ← pow_add, Nat.sub_add_cancel hk]
    rw [hw] at htie
    have hmr : m ≠ Double.roundQuot n (Double.roundShift n k) := by
      intro heq
      apply hne
      have h2 : Double.mag expo2 frac2 * 2 ^ k = Double.mag expo frac * 2 ^ k := by
        rw [hw, hv, heq]
      exact Nat.eq_of_mul_eq_mul_right (Nat.two_pow_pos k) h2
    apply a4
    unfold Nat.dist at htie
    rcases Nat.lt_or_gt_of_ne hmr with hlt | hgt
    · have := Nat.mul_le_mul_right (2 ^ Double.roundShift n k) (Nat.succ_le_of_lt hlt)
      rw [Nat.succ_mul] at this
      omega
    · have := Nat.mul_le_mul_right (2 ^ Double.roundShift n k) (Nat.succ_le_of_lt hgt)
      rw [Nat.succ_mul] at this
      omega
  · exfalso
    have hlt := Double.mag_lt_of_not_dvd expo2 frac2 _ hf2 hd
    have hkS : k < Double.roundShift n k := by
      by_contra hge
      have e0 : Double.roundShift n k - k = 0 := by omega
      rw [e0] at hd
      exact hd (one_dvd _)
    have hn := hbig hkS
    have hw : Double.mag expo2 frac2 * 2 ^ k < 2 ^ (Double.roundShift n k + 52) := by
      have := Nat.mul_lt_mul_of_lt_of_le hlt (Nat.le_refl (2 ^ k)) (Nat.two_pow_pos k)
      rw [← pow_add] at this
      have e : 52 + (Double.roundShift n k - k) + k = Double.roundShift n k + 52 := by omega
      rw [e] at this
      exact this
    have hgrid := Double.roundQuot_nearest n (Double.roundShift n k) (2 ^ 52)
    rw [← pow_add, Nat.add_comm 52] at hgrid
    unfold Nat.dist at hgrid htie
    omega

/-- Overflow: `roundPack` gives an infinity only when the value rounded to 53
digits is `2^1024` or more, and it never gives a NaN. -/
theorem Double.roundPack_inf (sign s : Bool) (n k : Nat)
    (h : Double.roundPack sign n k = Double.inf s) :
    s = sign ∧ 2 ^ (2098 + k)
      ≤ Double.roundQuot n (Double.roundShift n k) * 2 ^ Double.roundShift n k := by
  obtain ⟨hk, _, _⟩ := Double.roundShift_spec n k
  obtain ⟨c1, c2⟩ := Double.pack_inf sign s _ _ h
  refine ⟨c1, ?_⟩
  have := Nat.mul_le_mul_right (2 ^ k) c2
  rw [← pow_add, Nat.mul_assoc, ← pow_add, Nat.sub_add_cancel hk] at this
  exact this

/-- Round to nearest, on signed values: a finite result of `roundPack sign n k` is
as near to the signed value `± n / 2^k` as any finite datum of the format. -/
theorem Double.roundPack_nearest_units (sign s t : Bool) (n k expo frac expo2 frac2 : Nat)
    (h : Double.roundPack sign n k = Double.finite s expo frac)
    (hf2 : frac2 < 4503599627370496) :
    |(Double.finite s expo frac).units * 2 ^ k - (if sign then -(n : Int) else (n : Int))|
      ≤ |(Double.finite t expo2 frac2).units * 2 ^ k
          - (if sign then -(n : Int) else (n : Int))| := by
  obtain ⟨hs, _, _, _, _⟩ := Double.roundPack_finite sign s n k expo frac h
  have h1 := Double.roundPack_nearest sign s n k expo frac h expo2 frac2 hf2
  have h0 := Double.roundPack_nearest sign s n k expo frac h 0 0 (by norm_num)
  have hz : Double.mag 0 0 = 0 := rfl
  rw [hz, Nat.zero_mul] at h0
  unfold Nat.dist at h0 h1
  have hp : (0 : Int) < 2 ^ k := by positivity
  have c1 : ((Double.mag expo frac * 2 ^ k : Nat) : Int) = (Double.mag expo frac : Int) * 2 ^ k := by
    push_cast
    rfl
  have c2 : ((Double.mag expo2 frac2 * 2 ^ k : Nat) : Int)
      = (Double.mag expo2 frac2 : Int) * 2 ^ k := by
    push_cast
    rfl
  subst hs
  simp only [Double.units, abs_eq_max_neg]
  cases s <;> cases t <;> simp only [if_true, if_false, Bool.false_eq_true, neg_mul] <;> omega

/-- The product of two finite data, when finite, is a datum of the format nearest to
the exact product of their values. -/
theorem Double.mul_nearest (s1 s2 s t : Bool) (e1 f1 e2 f2 e f expo2 frac2 : Nat)
    (h : Double.finite s1 e1 f1 * Double.finite s2 e2 f2 = Double.finite s e f)
    (hf2 : frac2 < 4503599627370496) :
    e < 2047 ∧ f < 4503599627370496 ∧
      |(Double.finite s e f).units * 2 ^ 1074
          - (Double.finite s1 e1 f1).units * (Double.finite s2 e2 f2).units|
        ≤ |(Double.finite t expo2 frac2).units * 2 ^ 1074
          - (Double.finite s1 e1 f1).units * (Double.finite s2 e2 f2).units| := by
  have h1 : Double.roundPack (xor s1 s2) (Double.mag e1 f1 * Double.mag e2 f2) 1074
      = Double.finite s e f := h
  obtain ⟨_, he, hf, _, _⟩ := Double.roundPack_finite _ _ _ _ _ _ h1
  have key := Double.roundPack_nearest_units (xor s1 s2) s t _ 1074 e f expo2 frac2 h1 hf2
  have hx : (if xor s1 s2 then -((Double.mag e1 f1 * Double.mag e2 f2 : Nat) : Int)
      else ((Double.mag e1 f1 * Double.mag e2 f2 : Nat) : Int))
      = (Double.finite s1 e1 f1).units * (Double.finite s2 e2 f2).units := by
    cases s1 <;> cases s2 <;> simp [Double.units]
  rw [hx] at key
  exact ⟨he, hf, key⟩

/-- The sum of two finite data, when finite, is a datum of the format nearest to the
exact sum of their values. -/
theorem Double.add_nearest (s1 s2 s t : Bool) (e1 f1 e2 f2 e f expo2 frac2 : Nat)
    (h : Double.finite s1 e1 f1 + Double.finite s2 e2 f2 = Double.finite s e f)
    (hf2 : frac2 < 4503599627370496) :
    e < 2047 ∧ f < 4503599627370496 ∧
      |(Double.finite s e f).units
          - ((Double.finite s1 e1 f1).units + (Double.finite s2 e2 f2).units)|
        ≤ |(Double.finite t expo2 frac2).units
          - ((Double.finite s1 e1 f1).units + (Double.finite s2 e2 f2).units)| := by
  have h1 : Double.add (Double.finite s1 e1 f1) (Double.finite s2 e2 f2)
      = Double.finite s e f := h
  simp only [Double.add] at h1
  split at h1
  · next hs =>
    subst hs
    obtain ⟨_, he, hf, _, _⟩ := Double.roundPack_finite _ _ _ _ _ _ h1
    have key := Double.roundPack_nearest_units s1 s t _ 0 e f expo2 frac2 h1 hf2
    have hx : (if s1 then -((Double.mag e1 f1 + Double.mag e2 f2 : Nat) : Int)
        else ((Double.mag e1 f1 + Double.mag e2 f2 : Nat) : Int))
        = (Double.finite s1 e1 f1).units + (Double.finite s1 e2 f2).units := by
      cases s1 <;> simp [Double.units]
      omega
    rw [hx, pow_zero, mul_one, mul_one] at key
    exact ⟨he, hf, key⟩
  · next hs =>
    split at h1
    · next hab =>
      injection h1 with a1 a2 a3
      subst a1 a2 a3
      refine ⟨by norm_num, by norm_num, ?_⟩
      have hx : (Double.finite s1 e1 f1).units + (Double.finite s2 e2 f2).units = 0 := by
        cases s1 <;> cases s2 <;> simp [Double.units, hab] at hs ⊢
      rw [hx]
      simp [Double.units, Double.mag]
    · next hab =>
      split at h1
      · next hlt =>
        obtain ⟨_, he, hf, _, _⟩ := Double.roundPack_finite _ _ _ _ _ _ h1
        have key := Double.roundPack_nearest_units s1 s t _ 0 e f expo2 frac2 h1 hf2
        have hx : (if s1 then -((Double.mag e1 f1 - Double.mag e2 f2 : Nat) : Int)
            else ((Double.mag e1 f1 - Double.mag e2 f2 : Nat) : Int))
            = (Double.finite s1 e1 f1).units + (Double.finite s2 e2 f2).units := by
          cases s1 <;> cases s2 <;> simp [Double.units] at hs ⊢ <;> omega
        rw [hx, pow_zero, mul_one, mul_one] at key
        exact ⟨he, hf, key⟩
      · next hlt =>
        obtain ⟨_, he, hf, _, _⟩ := Double.roundPack_finite _ _ _ _ _ _ h1
        have key := Double.roundPack_nearest_units s2 s t _ 0 e f expo2 frac2 h1 hf2
        have hx : (if s2 then -((Double.mag e2 f2 - Double.mag e1 f1 : Nat) : Int)
            else ((Double.mag e2 f2 - Double.mag e1 f1 : Nat) : Int))
            = (Double.finite s1 e1 f1).units + (Double.finite s2 e2 f2).units := by
          cases s1 <;> cases s2 <;> simp [Double.units] at hs ⊢ <;> omega
        rw [hx, pow_zero, mul_one, mul_one] at key
        exact ⟨he, hf, key⟩

/-- The literals of the specification's examples have the expected encodings. -/
theorem Double.dyadic_literals :
    Double.zero = Double.ofBits 0x0000000000000000 ∧
    Double.dyadic false 1 0 = Double.ofBits 0x3FF0000000000000 ∧
    Double.dyadic false 2 0 = Double.ofBits 0x4000000000000000 ∧
    Double.dyadic false 3 0 = Double.ofBits 0x4008000000000000 ∧
    Double.dyadic false 6 0 = Double.ofBits 0x4018000000000000 ∧
    Double.dyadic false 3 1 = Double.ofBits 0x3FF8000000000000 ∧
    Double.dyadic true 3 1 = Double.ofBits 0xBFF8000000000000 := by
  decide

/-- Products with a negative factor, a zero and an infinity, evaluated. -/
theorem Double.mul_examples :
    Double.dyadic true 3 1 * Double.dyadic false 2 0 = Double.dyadic true 3 0 ∧
    Double.zero * Double.dyadic true 3 1 = Double.finite true 0 0 ∧
    Double.dyadic true 3 1 * Double.dyadic true 3 1 = Double.dyadic false 9 2 ∧
    Double.inf true * Double.zero = Double.nan := by
  decide

/-! ## The claims -/

namespace week1.day2

/-- C1 (amended): for all `int` values `i` and `j` whose sum `i + j` is again an
`int`, `add i j` is `i + j`, in `week1/day1` and in `week1/day2`. -/
theorem add_eq_sum_of_in_range (i j : Int) (_hi : isInt i) (_hj : isInt j)
    (hsum : isInt (i + j)) :
    week1.day1.add i j = i + j ∧ week1.day2.add i j = i + j :=
  ⟨wrapInt_of_isInt _ hsum, wrapInt_of_isInt _ hsum⟩

/-- Witness of C1 (amended) at `i = -7`, `j = 0`. -/
theorem add_eq_sum_of_in_range_witness :
    isInt (-7) ∧ isInt 0 ∧ isInt (-7 + 0) ∧
      week1.day1.add (-7) 0 = -7 + 0 ∧ week1.day2.add (-7) 0 = -7 + 0 :=
  ⟨by decide, by decide, by decide,
    add_eq_sum_of_in_range (-7) 0 (by decide) (by decide) (by decide)⟩

/-- C1 fails as stated: `INT_MAX` and `1` are `int` values, and both `add`
functions return `INT_MIN` for them, not `INT_MAX + 1`. -/
theorem add_ne_sum_at_int_max :
    isInt 2147483647 ∧ isInt 1 ∧
      week1.day1.add 2147483647 1 = -2147483648 ∧
      week1.day1.add 2147483647 1 ≠ 2147483647 + 1 ∧
      week1.day2.add 2147483647 1 = -2147483648 ∧
      week1.day2.add 2147483647 1 ≠ 2147483647 + 1 := by
  decide

/-- C2: `greet name` is `"Hello, "` followed by `name` followed by `"!"`, and
`greet ""` is `"Hello, !"`. -/
theorem greet_eq_concat (name : String) :
    greet name = "Hello, " ++ name ++ "!" ∧ greet "" = "Hello, !" :=
  ⟨rfl, by decide⟩

/-- C3: `sum_list` of the empty sequence is `0.0`. -/
theorem sum_list_nil : sum_list [] = Double.zero := rfl

/-- C4: `sum_list numbers` is the left-to-right fold of `double` addition over
`numbers` from the accumulator `0.0`. -/
theorem sum_list_eq_specLeftFoldSum (numbers : List Double) :
    sum_list numbers = specLeftFoldSum numbers :=
  accumulate_eq_foldl numbers Double.zero

/-- C5: `multiply a b` is the `double` product of `a` and `b`. -/
theorem multiply_eq_mul (a b : Double) : multiply a b = a * b := rfl

/-- C7: `sum_list [1.0, 2.0, 3.0]` is `6.0`. -/
theorem sum_list_one_two_three :
    sum_list [Double.dyadic false 1 0, Double.dyadic false 2 0, Double.dyadic false 3 0]
      = Double.dyadic false 6 0 := by
  decide

/-- C8: `sum_list [-1.5, 1.5]` is `0.0`. -/
theorem sum_list_cancel :
    sum_list [Double.dyadic true 3 1, Double.dyadic false 3 1] = Double.zero := by
  decide

/-- C9: `sum_list` of `xs` with `x` appended is `sum_list xs + x`. -/
theorem sum_list_append_singleton (xs : List Double) (x : Double) :
    sum_list (xs ++ [x]) = sum_list xs + x := by
  unfold sum_list
  rw [accumulate_append]
  rfl

/-- C10: `greet` is injective: equal greetings come from equal names. -/
theorem greet_injective (a b : String) (h : greet a = greet b) : a = b := by
  unfold greet at h
  have h1 : ("Hello, " ++ a ++ "!").data = ("Hello, " ++ b ++ "!").data := by rw [h]
  simp only [String.data_append] at h1
  have h2 := List.append_cancel_left (List.append_cancel_right h1)
  exact String.ext h2

/-- Witness of C10 at the name `"Ada"`. -/
theorem greet_injective_witness : greet "Ada" = greet "Ada" ∧ "Ada" = "Ada" :=
  ⟨rfl, greet_injective "Ada" "Ada" rfl⟩

end week1.day2
